import Mathlib

/-!
# Verification of the bernard synchronisation engine

A shallow embedding of the bernard Google Drive mirroring engine
(`fetch.go`, the `datastore` package and the SQLite reference datastore),
together with proofs of the specified properties.

Conventions:
* Go slices become `List`, Go strings become `String`, Go `int` becomes `Int`.
* Go maps built by iteration (`m[k] = v`) are embedded as left folds over the
  building list, so lookup returns the *last* write, exactly as in Go.
* Code that can panic (indexing `item.Parents[0]`) or loop forever
  (`orderFoldersOnHierarchy` on a parent cycle) is embedded in `Option`,
  `none` marking the fault / divergence.
-/

namespace Bernard

/-- `datastore.Folder` (datastore package). -/
structure Folder where
  ID : String
  Name : String
  Parent : String
  Trashed : Bool
deriving DecidableEq, Repr

/-- `datastore.File` (datastore package). -/
structure File where
  ID : String
  Name : String
  Parent : String
  Trashed : Bool
  Size : Int
  MD5 : String
deriving DecidableEq, Repr

/-- `datastore.Drive` (datastore package). -/
structure Drive where
  ID : String
  Name : String
  PageToken : String
deriving DecidableEq, Repr

/-- `driveItem` (fetch.go): the upstream item shape. -/
structure DriveItem where
  ID : String
  Name : String
  MimeType : String
  Parents : List String
  Size : Int
  MD5Checksum : String
  Trashed : Bool
  DriveID : String
deriving DecidableEq, Repr

/-- The folder MIME type tested by `convert` (fetch.go). -/
def folderMimeType : String := "application/vnd.google-apps.folder"

/-- `convert` (fetch.go).  The Go code reads `item.Parents[0]` without a
bounds check, so an item whose `Parents` slice is empty panics; the panic is
embedded as `none`.  Appending to the two result slices in a loop is embedded
as structural recursion producing the same element order. -/
def convert : List DriveItem → Option (List Folder × List File)
  | [] => some ([], [])
  | item :: rest =>
    match item.Parents with
    | [] => none
    | parent0 :: _ =>
      match convert rest with
      | none => none
      | some (folders, files) =>
        if item.MimeType = folderMimeType then
          some ({ ID := item.ID, Name := item.Name, Parent := parent0,
                  Trashed := item.Trashed } :: folders, files)
        else
          some (folders, { ID := item.ID, Name := item.Name, Parent := parent0,
                           Trashed := item.Trashed, Size := item.Size,
                           MD5 := item.MD5Checksum } :: files)

/-- The folder built by `convert` from an item (first parent kept). -/
def itemToFolder (item : DriveItem) : Folder :=
  { ID := item.ID, Name := item.Name, Parent := item.Parents.headD "",
    Trashed := item.Trashed }

/-- The file built by `convert` from an item (first parent kept). -/
def itemToFile (item : DriveItem) : File :=
  { ID := item.ID, Name := item.Name, Parent := item.Parents.headD "",
    Trashed := item.Trashed, Size := item.Size, MD5 := item.MD5Checksum }

/-- Folder projection of `convert` on a single item. -/
def convFolder? (item : DriveItem) : Option Folder :=
  if item.MimeType = folderMimeType then some (itemToFolder item) else none

/-- File projection of `convert` on a single item. -/
def convFile? (item : DriveItem) : Option File :=
  if item.MimeType = folderMimeType then none else some (itemToFile item)

theorem convert_eq_filterMap (items : List DriveItem)
    (h : ∀ item ∈ items, item.Parents ≠ []) :
    convert items = some (items.filterMap convFolder?, items.filterMap convFile?) := by
  induction items with
  | nil => rfl
  | cons item rest ih =>
    have hitem : item.Parents ≠ [] := h item (List.mem_cons_self _ _)
    have hrest : ∀ i ∈ rest, i.Parents ≠ [] := fun i hi => h i (List.mem_cons_of_mem _ hi)
    obtain ⟨p, ps, hps⟩ : ∃ p ps, item.Parents = p :: ps := by
      cases hp : item.Parents with
      | nil => exact absurd hp hitem
      | cons p ps => exact ⟨p, ps, rfl⟩
    simp only [convert, hps, ih hrest, List.filterMap_cons]
    by_cases hm : item.MimeType = folderMimeType <;>
      simp [convFolder?, convFile?, hm, itemToFolder, itemToFile, hps]

theorem convert_counts (items : List DriveItem) :
    (items.filterMap convFolder?).length + (items.filterMap convFile?).length
      = items.length := by
  induction items with
  | nil => rfl
  | cons item rest ih =>
    by_cases hm : item.MimeType = folderMimeType <;>
      simp [convFolder?, convFile?, hm, List.filterMap_cons] <;> omega

/-! ## Folder hierarchy ordering (fetch.go: `rootFolders`, `orderFoldersOnHierarchy`) -/

/-- The `IDtoParent` Go map of `rootFolders`, built by `IDtoParent[folder.ID] =
folder.Parent` over the list; embedded as a left fold so that lookup returns the
last write, as a Go map does. -/
def idToParent (folders : List Folder) (key : String) : Option String :=
  folders.foldl (fun acc f => if f.ID = key then some f.Parent else acc) none

/-- The `IDtoFolder` Go map of `rootFolders`, last write wins. -/
def idToFolder (folders : List Folder) (key : String) : Option Folder :=
  folders.foldl (fun acc f => if f.ID = key then some f else acc) none

/-- The zero value of the Go `Folder` struct, returned by a Go map access on a
missing key. -/
def zeroFolder : Folder := ⟨"", "", "", false⟩

/-- `IDtoFolder[key]` as an access expression (zero value on a missing key). -/
def canonical (folders : List Folder) (key : String) : Folder :=
  (idToFolder folders key).getD zeroFolder

/-- The `if _, ok := IDtoParent[f.Parent]; ok` test of `rootFolders`. -/
def isNonRoot (folders : List Folder) (f : Folder) : Bool :=
  (idToParent folders f.Parent).isSome

/-- `rootFolders` (fetch.go): one pass over the folders, appending
`IDtoFolder[f.ID]` to `nonRoots` when `IDtoParent[f.Parent]` exists and to
`roots` otherwise. -/
def rootFolders (folders : List Folder) : List Folder × List Folder :=
  folders.foldl
    (fun acc f =>
      if isNonRoot folders f then (acc.1, acc.2 ++ [canonical folders f.ID])
      else (acc.1 ++ [canonical folders f.ID], acc.2))
    ([], [])

/-- `orderFoldersOnHierarchy` (fetch.go) with an explicit unrolling bound: the
Go `for` loop repeatedly extracts roots until the working set empties, and
spins forever when a pass makes no progress; `none` records that the bound was
reached without emptying the set. -/
def orderGo : Nat → List Folder → Option (List Folder)
  | _, [] => some []
  | 0, _ :: _ => none
  | fuel + 1, f :: fs =>
    match orderGo fuel (rootFolders (f :: fs)).2 with
    | none => none
    | some rest => some ((rootFolders (f :: fs)).1 ++ rest)

/-- `orderFoldersOnHierarchy` (fetch.go): when each pass extracts at least one
root, `folders.length` passes always suffice, so this computes exactly the
terminating runs of the Go loop. -/
def orderFoldersOnHierarchy (folders : List Folder) : Option (List Folder) :=
  orderGo folders.length folders

/-! ### Lookup lemmas for the Go-map embedding -/

theorem foldl_lookup_no_match {α : Type} (step : Folder → α)
    (l : List Folder) (acc : Option α) (key : String)
    (h : ∀ g ∈ l, g.ID ≠ key) :
    l.foldl (fun acc f => if f.ID = key then some (step f) else acc) acc = acc := by
  induction l generalizing acc with
  | nil => rfl
  | cons x t ih =>
    have hx : x.ID ≠ key := h x (List.mem_cons_self _ _)
    simp only [List.foldl_cons, if_neg hx]
    exact ih acc (fun g hg => h g (List.mem_cons_of_mem _ hg))

theorem idToFolder_mem {folders : List Folder} {key : String} {g : Folder}
    (h : idToFolder folders key = some g) : g ∈ folders ∧ g.ID = key := by
  suffices H : ∀ (l : List Folder) (acc : Option Folder),
      l.foldl (fun acc f => if f.ID = key then some f else acc) acc = some g →
      (g ∈ l ∧ g.ID = key) ∨ acc = some g by
    rcases H folders none h with h' | h'
    · exact h'
    · exact absurd h' (by simp)
  intro l
  induction l with
  | nil => intro acc h'; exact Or.inr h'
  | cons x t ih =>
    intro acc h'
    simp only [List.foldl_cons] at h'
    rcases ih _ h' with h'' | h''
    · exact Or.inl ⟨List.mem_cons_of_mem _ h''.1, h''.2⟩
    · by_cases hx : x.ID = key
      · rw [if_pos hx] at h''
        obtain rfl : x = g := by injection h''
        exact Or.inl ⟨List.mem_cons_self _ _, hx⟩
      · rw [if_neg hx] at h''
        exact Or.inr h''

theorem idToFolder_isSome_of_mem {folders : List Folder} {f : Folder}
    (h : f ∈ folders) : (idToFolder folders f.ID).isSome := by
  unfold idToFolder
  suffices H : ∀ (l : List Folder) (acc : Option Folder), f ∈ l ∨ acc.isSome →
      (l.foldl (fun acc g => if g.ID = f.ID then some g else acc) acc).isSome from
    H folders none (Or.inl h)
  intro l
  induction l with
  | nil => intro acc h'; simpa using h'
  | cons x t ih =>
    intro acc h'
    simp only [List.foldl_cons]
    by_cases hx : x.ID = f.ID
    · exact ih _ (Or.inr (by simp [hx]))
    · rcases h' with h' | h'
      · rcases List.mem_cons.mp h' with rfl | h'
        · exact absurd rfl hx
        · exact ih _ (Or.inl h')
      · exact ih _ (Or.inr (by simpa [hx] using h'))

theorem idToParent_eq_map (folders : List Folder) (key : String) :
    idToParent folders key = (idToFolder folders key).map Folder.Parent := by
  unfold idToParent idToFolder
  suffices H : ∀ (l : List Folder) (acc : Option Folder),
      l.foldl (fun acc f => if f.ID = key then some f.Parent else acc) (acc.map Folder.Parent)
      = (l.foldl (fun acc f => if f.ID = key then some f else acc) acc).map Folder.Parent by
    simpa using H folders none
  intro l
  induction l with
  | nil => intro acc; rfl
  | cons x t ih =>
    intro acc
    simp only [List.foldl_cons]
    by_cases hx : x.ID = key
    · rw [if_pos hx, if_pos hx, ← ih (some x)]; rfl
    · rw [if_neg hx, if_neg hx, ih acc]

theorem isNonRoot_iff (folders : List Folder) (f : Folder) :
    isNonRoot folders f = true ↔ ∃ g ∈ folders, g.ID = f.Parent := by
  rw [isNonRoot, idToParent_eq_map]
  constructor
  · intro h
    obtain ⟨y, hy⟩ := Option.isSome_iff_exists.mp h
    obtain ⟨g, hg, -⟩ := Option.map_eq_some'.mp hy
    obtain ⟨hmem, hid⟩ := idToFolder_mem hg
    exact ⟨g, hmem, hid⟩
  · intro ⟨g, hmem, hid⟩
    have h := idToFolder_isSome_of_mem hmem
    rw [hid] at h
    obtain ⟨g', hg'⟩ := Option.isSome_iff_exists.mp h
    simp [hg']

theorem canonical_mem {folders : List Folder} {f : Folder} (h : f ∈ folders) :
    canonical folders f.ID ∈ folders := by
  unfold canonical
  obtain ⟨g, hg⟩ := Option.isSome_iff_exists.mp (idToFolder_isSome_of_mem h)
  rw [hg]
  exact (idToFolder_mem hg).1

theorem idToFolder_self_of_nodup {folders : List Folder} {f : Folder}
    (hnd : (folders.map Folder.ID).Nodup) (h : f ∈ folders) :
    idToFolder folders f.ID = some f := by
  unfold idToFolder
  induction folders with
  | nil => cases h
  | cons x t ih =>
    simp only [List.map_cons, List.nodup_cons] at hnd
    simp only [List.foldl_cons]
    rcases List.mem_cons.mp h with rfl | hf
    · rw [if_pos rfl]
      exact foldl_lookup_no_match id t (some f) f.ID
        (fun g hg hgid => hnd.1 (hgid ▸ List.mem_map_of_mem Folder.ID hg))
    · have hx : x.ID ≠ f.ID := fun he =>
        hnd.1 (he ▸ List.mem_map_of_mem Folder.ID hf)
      rw [if_neg hx]
      exact ih hnd.2 hf

theorem canonical_self_of_nodup {folders : List Folder} {f : Folder}
    (hnd : (folders.map Folder.ID).Nodup) (h : f ∈ folders) :
    canonical folders f.ID = f := by
  rw [canonical, idToFolder_self_of_nodup hnd h]; rfl

/-! ### Characterisation of `rootFolders` -/

/-- What one `rootFolders` pass contributes to `roots` for the element `f`. -/
def rootSel (all : List Folder) (f : Folder) : Option Folder :=
  if isNonRoot all f then none else some (canonical all f.ID)

/-- What one `rootFolders` pass contributes to `nonRoots` for the element `f`. -/
def nonRootSel (all : List Folder) (f : Folder) : Option Folder :=
  if isNonRoot all f then some (canonical all f.ID) else none

theorem rootFolders_eq (folders : List Folder) :
    rootFolders folders =
      (folders.filterMap (rootSel folders), folders.filterMap (nonRootSel folders)) := by
  unfold rootFolders
  suffices H : ∀ (l : List Folder) (acc1 acc2 : List Folder),
      (l.foldl
        (fun acc f =>
          if isNonRoot folders f then (acc.1, acc.2 ++ [canonical folders f.ID])
          else (acc.1 ++ [canonical folders f.ID], acc.2))
        (acc1, acc2))
      = (acc1 ++ l.filterMap (rootSel folders), acc2 ++ l.filterMap (nonRootSel folders)) by
    simpa using H folders [] []
  intro l
  induction l with
  | nil => intro acc1 acc2; simp
  | cons x t ih =>
    intro acc1 acc2
    by_cases hx : isNonRoot folders x <;>
      simp [hx, ih, rootSel, nonRootSel, List.filterMap_cons]

theorem rootFolders_length (folders : List Folder) :
    (rootFolders folders).1.length + (rootFolders folders).2.length = folders.length := by
  rw [rootFolders_eq]
  suffices H : ∀ l : List Folder,
      (l.filterMap (rootSel folders)).length + (l.filterMap (nonRootSel folders)).length
        = l.length from H folders
  intro l
  induction l with
  | nil => rfl
  | cons x t ih =>
    by_cases hx : isNonRoot folders x
    · have h1 : rootSel folders x = none := by simp [rootSel, hx]
      have h2 : nonRootSel folders x = some (canonical folders x.ID) := by simp [nonRootSel, hx]
      simp only [List.filterMap_cons, h1, h2, List.length_cons]
      omega
    · have h1 : rootSel folders x = some (canonical folders x.ID) := by simp [rootSel, hx]
      have h2 : nonRootSel folders x = none := by simp [nonRootSel, hx]
      simp only [List.filterMap_cons, h1, h2, List.length_cons]
      omega

theorem mem_rootFolders_roots {folders : List Folder} {x : Folder}
    (h : x ∈ (rootFolders folders).1) : x ∈ folders := by
  rw [rootFolders_eq] at h
  obtain ⟨f, hf, hsel⟩ := List.mem_filterMap.mp h
  unfold rootSel at hsel
  by_cases hnr : isNonRoot folders f
  · simp [hnr] at hsel
  · rw [if_neg hnr] at hsel
    obtain rfl : canonical folders f.ID = x := by injection hsel
    exact canonical_mem hf

theorem mem_rootFolders_nonRoots {folders : List Folder} {x : Folder}
    (h : x ∈ (rootFolders folders).2) : x ∈ folders := by
  rw [rootFolders_eq] at h
  obtain ⟨f, hf, hsel⟩ := List.mem_filterMap.mp h
  unfold nonRootSel at hsel
  by_cases hnr : isNonRoot folders f
  · rw [if_pos hnr] at hsel
    obtain rfl : canonical folders f.ID = x := by injection hsel
    exact canonical_mem hf
  · simp [hnr] at hsel

/-- A small `filterMap` congruence helper. -/
theorem filterMap_congr_mem {α β : Type} {f g : α → Option β} {l : List α}
    (h : ∀ a ∈ l, f a = g a) : l.filterMap f = l.filterMap g := by
  induction l with
  | nil => rfl
  | cons x t ih =>
    simp only [List.filterMap_cons, h x (List.mem_cons_self _ _)]
    rw [ih (fun a ha => h a (List.mem_cons_of_mem _ ha))]

/-- `filterMap` with an all-or-nothing selector is `filter`. -/
theorem filterMap_ite_self {α : Type} (p : α → Bool) (l : List α) :
    l.filterMap (fun a => if p a then some a else none) = l.filter p := by
  induction l with
  | nil => rfl
  | cons x t ih =>
    by_cases hx : p x <;> simp [List.filterMap_cons, List.filter_cons, hx, ih]

/-- Under unique IDs, a `rootFolders` pass is a plain stable partition of the
input list by the non-root test. -/
theorem rootFolders_eq_filter {folders : List Folder}
    (hnd : (folders.map Folder.ID).Nodup) :
    rootFolders folders =
      (folders.filter (fun f => !(isNonRoot folders f)),
       folders.filter (fun f => isNonRoot folders f)) := by
  rw [rootFolders_eq]
  have h1 : folders.filterMap (rootSel folders)
      = folders.filterMap (fun f => if !(isNonRoot folders f) then some f else none) :=
    filterMap_congr_mem (fun f hf => by
      unfold rootSel
      by_cases hnr : isNonRoot folders f
      · simp [hnr]
      · simp [hnr, canonical_self_of_nodup hnd hf])
  have h2 : folders.filterMap (nonRootSel folders)
      = folders.filterMap (fun f => if isNonRoot folders f then some f else none) :=
    filterMap_congr_mem (fun f hf => by
      unfold nonRootSel
      by_cases hnr : isNonRoot folders f
      · simp [hnr, canonical_self_of_nodup hnd hf]
      · simp [hnr])
  rw [h1, h2, filterMap_ite_self, filterMap_ite_self]

/-! ### Behaviour of the ordering loop -/

theorem nonRoots_nodup {folders : List Folder}
    (hnd : (folders.map Folder.ID).Nodup) :
    (((rootFolders folders).2).map Folder.ID).Nodup := by
  rw [rootFolders_eq_filter hnd]
  exact ((List.filter_sublist folders).map Folder.ID).nodup hnd

theorem roots_append_nonRoots_perm {folders : List Folder}
    (hnd : (folders.map Folder.ID).Nodup) :
    ((rootFolders folders).1 ++ (rootFolders folders).2).Perm folders := by
  rw [rootFolders_eq_filter hnd]
  have h := List.filter_append_perm (fun f => !(isNonRoot folders f)) folders
  have hc : folders.filter (fun f => !(!(isNonRoot folders f)))
      = folders.filter (fun f => isNonRoot folders f) := by
    apply List.filter_congr
    intro f _
    rw [Bool.not_not]
  rw [hc] at h
  exact h

theorem orderGo_perm : ∀ (fuel : Nat) (fs out : List Folder),
    (fs.map Folder.ID).Nodup → orderGo fuel fs = some out → out.Perm fs := by
  intro fuel
  induction fuel with
  | zero =>
    intro fs out hnd h
    cases fs with
    | nil =>
      obtain rfl : ([] : List Folder) = out := by injection h
      exact List.Perm.refl _
    | cons f t => exact absurd h (by simp [orderGo])
  | succ n ih =>
    intro fs out hnd h
    cases fs with
    | nil =>
      obtain rfl : ([] : List Folder) = out := by injection h
      exact List.Perm.refl _
    | cons f t =>
      rw [orderGo] at h
      cases horder : orderGo n ((rootFolders (f :: t)).2) with
      | none => rw [horder] at h; exact absurd h (by simp)
      | some rest =>
        rw [horder] at h
        obtain rfl : (rootFolders (f :: t)).1 ++ rest = out := by injection h
        have hperm := ih _ _ (nonRoots_nodup hnd) horder
        exact ((hperm.append_left _).trans (roots_append_nonRoots_perm hnd))

theorem orderGo_mem : ∀ (fuel : Nat) (fs out : List Folder),
    orderGo fuel fs = some out → ∀ x ∈ out, x ∈ fs := by
  intro fuel
  induction fuel with
  | zero =>
    intro fs out h x hx
    cases fs with
    | nil =>
      obtain rfl : ([] : List Folder) = out := by injection h
      cases hx
    | cons f t => exact absurd h (by simp [orderGo])
  | succ n ih =>
    intro fs out h x hx
    cases fs with
    | nil =>
      obtain rfl : ([] : List Folder) = out := by injection h
      cases hx
    | cons f t =>
      rw [orderGo] at h
      cases horder : orderGo n ((rootFolders (f :: t)).2) with
      | none => rw [horder] at h; exact absurd h (by simp)
      | some rest =>
        rw [horder] at h
        obtain rfl : (rootFolders (f :: t)).1 ++ rest = out := by injection h
        rcases List.mem_append.mp hx with hx | hx
        · exact mem_rootFolders_roots hx
        · exact mem_rootFolders_nonRoots (ih _ _ horder x hx)

theorem orderGo_parent_before_child : ∀ (fuel : Nat) (fs out : List Folder),
    (fs.map Folder.ID).Nodup → orderGo fuel fs = some out →
    ∀ p c, p ∈ fs → c ∈ fs → c.Parent = p.ID → [p, c].Sublist out := by
  intro fuel
  induction fuel with
  | zero =>
    intro fs out hnd h p c hp hc hpc
    cases fs with
    | nil => cases hp
    | cons f t => exact absurd h (by simp [orderGo])
  | succ n ih =>
    intro fs out hnd h p c hp hc hpc
    cases fs with
    | nil => cases hp
    | cons f t =>
      rw [orderGo] at h
      cases horder : orderGo n ((rootFolders (f :: t)).2) with
      | none => rw [horder] at h; exact absurd h (by simp)
      | some rest =>
        rw [horder] at h
        obtain rfl : (rootFolders (f :: t)).1 ++ rest = out := by injection h
        have hcnr : isNonRoot (f :: t) c = true :=
          (isNonRoot_iff _ _).mpr ⟨p, hp, hpc.symm⟩
        have hcmem : c ∈ (rootFolders (f :: t)).2 := by
          rw [rootFolders_eq_filter hnd]
          exact List.mem_filter.mpr ⟨hc, hcnr⟩
        by_cases hpnr : isNonRoot (f :: t) p
        · have hpmem : p ∈ (rootFolders (f :: t)).2 := by
            rw [rootFolders_eq_filter hnd]
            exact List.mem_filter.mpr ⟨hp, hpnr⟩
          have hsub := ih _ _ (nonRoots_nodup hnd) horder p c hpmem hcmem hpc
          exact hsub.trans (List.sublist_append_right _ _)
        · have hpmem : p ∈ (rootFolders (f :: t)).1 := by
            rw [rootFolders_eq_filter hnd]
            exact List.mem_filter.mpr ⟨hp, by simp [hpnr]⟩
          have hcrest : c ∈ rest :=
            ((orderGo_perm n _ _ (nonRoots_nodup hnd) horder).mem_iff).mpr hcmem
          have h1 : [p].Sublist (rootFolders (f :: t)).1 :=
            List.singleton_sublist.mpr hpmem
          have h2 : [c].Sublist rest := List.singleton_sublist.mpr hcrest
          exact h1.append h2

theorem orderGo_sibling_order : ∀ (fuel : Nat) (fs out : List Folder),
    (fs.map Folder.ID).Nodup → orderGo fuel fs = some out →
    ∀ x y, [x, y].Sublist fs → x.Parent = y.Parent → [x, y].Sublist out := by
  intro fuel
  induction fuel with
  | zero =>
    intro fs out hnd h x y hxy hpar
    cases fs with
    | nil => cases hxy.length_le
    | cons f t => exact absurd h (by simp [orderGo])
  | succ n ih =>
    intro fs out hnd h x y hxy hpar
    cases fs with
    | nil =>
      have := hxy.length_le
      simp at this
    | cons f t =>
      rw [orderGo] at h
      cases horder : orderGo n ((rootFolders (f :: t)).2) with
      | none => rw [horder] at h; exact absurd h (by simp)
      | some rest =>
        rw [horder] at h
        obtain rfl : (rootFolders (f :: t)).1 ++ rest = out := by injection h
        have htest : isNonRoot (f :: t) x = isNonRoot (f :: t) y := by
          unfold isNonRoot
          rw [hpar]
        by_cases hx : isNonRoot (f :: t) x
        · have hsubnr : [x, y].Sublist ((f :: t).filter (fun g => isNonRoot (f :: t) g)) := by
            have := hxy.filter (fun g => isNonRoot (f :: t) g)
            rwa [List.filter_cons_of_pos, List.filter_cons_of_pos, List.filter_nil] at this
            · rw [← htest]; exact hx
            · exact hx
          have : [x, y].Sublist (rootFolders (f :: t)).2 := by
            rw [rootFolders_eq_filter hnd]; exact hsubnr
          exact (ih _ _ (nonRoots_nodup hnd) horder x y this hpar).trans
            (List.sublist_append_right _ _)
        · have hsubr : [x, y].Sublist ((f :: t).filter (fun g => !(isNonRoot (f :: t) g))) := by
            have := hxy.filter (fun g => !(isNonRoot (f :: t) g))
            rwa [List.filter_cons_of_pos, List.filter_cons_of_pos, List.filter_nil] at this
            · rw [Bool.not_eq_true'] at *
              simp [← htest, hx]
            · simp [hx]
          have : [x, y].Sublist (rootFolders (f :: t)).1 := by
            rw [rootFolders_eq_filter hnd]; exact hsubr
          exact this.trans (List.sublist_append_left _ _)

/-- In a duplicate-free list, the element of an ordered pair sublist occurring
first has the smaller index. -/
theorem indexOf_lt_of_pair_sublist {α : Type} [DecidableEq α] :
    ∀ {l : List α} {a b : α}, [a, b].Sublist l → l.Nodup →
      l.indexOf a < l.indexOf b := by
  intro l
  induction l with
  | nil => intro a b h _; cases h
  | cons x t ih =>
    intro a b h hnd
    have hab : a ≠ b := by
      have hpair : ([a, b] : List α).Nodup := hnd.sublist h
      exact (List.nodup_cons.mp hpair).1 ∘ (by intro he; rw [he]; exact List.mem_cons_self _ _)
    cases h with
    | cons _ h' =>
      have ha : a ∈ t := h'.subset (List.mem_cons_self _ _)
      have hb : b ∈ t := h'.subset (List.mem_cons_of_mem _ (List.mem_cons_self _ _))
      have hx : x ∉ t := (List.nodup_cons.mp hnd).1
      have hxa : x ≠ a := fun he => hx (he ▸ ha)
      have hxb : x ≠ b := fun he => hx (he ▸ hb)
      rw [List.indexOf_cons_ne _ hxa, List.indexOf_cons_ne _ hxb]
      exact Nat.succ_lt_succ (ih h' (List.nodup_cons.mp hnd).2)
    | cons₂ _ h' =>
      have hb : b ∈ t := h'.subset (List.mem_cons_self _ _)
      rw [List.indexOf_cons_self, List.indexOf_cons_ne _ hab]
      exact Nat.succ_pos _

/-! ### Termination of the ordering loop on acyclic inputs -/

/-- A rank function witnessing that the parent relation inside `fs` is
acyclic: a folder's parent (when present in the set) has strictly smaller
rank. -/
def Hier (rank : String → Nat) (fs : List Folder) : Prop :=
  ∀ c ∈ fs, ∀ p ∈ fs, p.ID = c.Parent → rank p.ID < rank c.ID

theorem exists_min_rank (rank : String → Nat) :
    ∀ (fs : List Folder), fs ≠ [] → ∃ m ∈ fs, ∀ g ∈ fs, rank m.ID ≤ rank g.ID := by
  intro fs
  induction fs with
  | nil => intro h; exact absurd rfl h
  | cons f t ih =>
    intro _
    cases t with
    | nil =>
      refine ⟨f, List.mem_cons_self _ _, ?_⟩
      intro g hg
      rcases List.mem_cons.mp hg with rfl | h
      · exact le_refl _
      · cases h
    | cons f' t' =>
      obtain ⟨m, hm, hmin⟩ := ih (by simp)
      by_cases hfm : rank f.ID ≤ rank m.ID
      · refine ⟨f, List.mem_cons_self _ _, ?_⟩
        intro g hg
        rcases List.mem_cons.mp hg with rfl | hg
        · exact le_refl _
        · exact hfm.trans (hmin g hg)
      · refine ⟨m, List.mem_cons_of_mem _ hm, ?_⟩
        intro g hg
        rcases List.mem_cons.mp hg with rfl | hg
        · exact le_of_lt (lt_of_not_le hfm)
        · exact hmin g hg

theorem roots_ne_nil_of_hier {rank : String → Nat} {fs : List Folder}
    (hh : Hier rank fs) (hne : fs ≠ []) : (rootFolders fs).1 ≠ [] := by
  obtain ⟨m, hm, hmin⟩ := exists_min_rank rank fs hne
  have hroot : isNonRoot fs m = false := by
    by_contra h
    rw [Bool.not_eq_false] at h
    obtain ⟨g, hg, hgid⟩ := (isNonRoot_iff fs m).mp h
    exact absurd (hmin g hg) (not_le_of_lt (hh m hm g hg hgid))
  intro hcontra
  have : canonical fs m.ID ∈ (rootFolders fs).1 := by
    rw [rootFolders_eq]
    exact List.mem_filterMap.mpr ⟨m, hm, by simp [rootSel, hroot]⟩
  rw [hcontra] at this
  cases this

theorem hier_nonRoots {rank : String → Nat} {fs : List Folder}
    (hh : Hier rank fs) : Hier rank (rootFolders fs).2 := by
  intro c hc p hp hid
  exact hh c (mem_rootFolders_nonRoots hc) p (mem_rootFolders_nonRoots hp) hid

theorem orderGo_total_of_hier {rank : String → Nat} :
    ∀ (fuel : Nat) (fs : List Folder), fs.length ≤ fuel → Hier rank fs →
      ∃ out, orderGo fuel fs = some out := by
  intro fuel
  induction fuel with
  | zero =>
    intro fs hlen _
    obtain rfl : fs = [] := List.eq_nil_of_length_eq_zero (Nat.le_zero.mp hlen)
    exact ⟨[], rfl⟩
  | succ n ih =>
    intro fs hlen hh
    cases fs with
    | nil => exact ⟨[], rfl⟩
    | cons f t =>
      have hrne : (rootFolders (f :: t)).1 ≠ [] :=
        roots_ne_nil_of_hier hh (by simp)
      have hrpos : 0 < (rootFolders (f :: t)).1.length :=
        List.length_pos.mpr hrne
      have hlen2 : (rootFolders (f :: t)).2.length ≤ n := by
        have := rootFolders_length (f :: t)
        simp only [List.length_cons] at hlen this
        omega
      obtain ⟨rest, hrest⟩ := ih _ hlen2 (hier_nonRoots hh)
      exact ⟨(rootFolders (f :: t)).1 ++ rest, by rw [orderGo, hrest]⟩

/-! ## Claims C5, C6, C7: `orderFoldersOnHierarchy` -/

/-- C5 (counterexample): with two distinct folders sharing the ID `"a"`, the
output of `orderFoldersOnHierarchy` replaces the first by the last map write,
so the parent `P = ⟨"a","1","r"⟩` of `C = ⟨"b","3","a"⟩` does not occur in the
output at all and `index(P) < index(C)` fails (`indexOf` of an absent element
is the length, 3, which is not below `index(C) = 2`). -/
theorem claim_C5_counterexample :
    orderFoldersOnHierarchy
        [⟨"a", "1", "r", false⟩, ⟨"a", "2", "r", false⟩, ⟨"b", "3", "a", false⟩]
      = some [⟨"a", "2", "r", false⟩, ⟨"a", "2", "r", false⟩, ⟨"b", "3", "a", false⟩] ∧
    ¬ (List.indexOf (⟨"a", "1", "r", false⟩ : Folder)
          [⟨"a", "2", "r", false⟩, ⟨"a", "2", "r", false⟩, ⟨"b", "3", "a", false⟩]
        < List.indexOf (⟨"b", "3", "a", false⟩ : Folder)
          [⟨"a", "2", "r", false⟩, ⟨"a", "2", "r", false⟩, ⟨"b", "3", "a", false⟩]) := by
  constructor
  · decide
  · decide

/-- C5 (amended): when the input folders carry pairwise distinct IDs and the
ordering loop terminates (`orderFoldersOnHierarchy S = some out`), every
parent precedes each of its children in the output, and siblings (folders
with equal `Parent`) retain their relative input order. -/
theorem claim_C5_hierarchy_order {S out : List Folder}
    (h : orderFoldersOnHierarchy S = some out)
    (hnd : (S.map Folder.ID).Nodup) :
    (∀ p ∈ S, ∀ c ∈ S, c.Parent = p.ID → out.indexOf p < out.indexOf c) ∧
    (∀ x y : Folder, [x, y].Sublist S → x.Parent = y.Parent →
      out.indexOf x < out.indexOf y) := by
  rw [orderFoldersOnHierarchy] at h
  have hS : S.Nodup := hnd.of_map
  have hout : out.Nodup := ((orderGo_perm _ _ _ hnd h).nodup_iff).mpr hS
  constructor
  · intro p hp c hc hpc
    exact indexOf_lt_of_pair_sublist
      (orderGo_parent_before_child _ _ _ hnd h p c hp hc hpc) hout
  · intro x y hxy hpar
    exact indexOf_lt_of_pair_sublist
      (orderGo_sibling_order _ _ _ hnd h x y hxy hpar) hout

/-- C5 (witness): a concrete two-folder chain ordered by the claim. -/
theorem claim_C5_witness :
    List.indexOf (⟨"A", "", "Z", false⟩ : Folder)
        [⟨"A", "", "Z", false⟩, ⟨"B", "", "A", false⟩]
      < List.indexOf (⟨"B", "", "A", false⟩ : Folder)
        [⟨"A", "", "Z", false⟩, ⟨"B", "", "A", false⟩] := by
  exact (@claim_C5_hierarchy_order
      [⟨"A", "", "Z", false⟩, ⟨"B", "", "A", false⟩]
      [⟨"A", "", "Z", false⟩, ⟨"B", "", "A", false⟩]
      (by decide) (by decide)).1
    ⟨"A", "", "Z", false⟩ (by decide) ⟨"B", "", "A", false⟩ (by decide) (by decide)

/-- C6 (counterexample): with duplicate IDs the output of
`orderFoldersOnHierarchy` is taken from the `IDtoFolder` map, so the first of
two folders sharing an ID is replaced by the second: the output is not a
permutation of the input. -/
theorem claim_C6_counterexample :
    orderFoldersOnHierarchy [⟨"A", "x", "p", false⟩, ⟨"A", "y", "p", false⟩]
      = some [⟨"A", "y", "p", false⟩, ⟨"A", "y", "p", false⟩] ∧
    ¬ ([(⟨"A", "y", "p", false⟩ : Folder), ⟨"A", "y", "p", false⟩].Perm
        [⟨"A", "x", "p", false⟩, ⟨"A", "y", "p", false⟩]) := by
  constructor
  · decide
  · intro hperm
    have : (⟨"A", "x", "p", false⟩ : Folder) ∈
        [(⟨"A", "y", "p", false⟩ : Folder), ⟨"A", "y", "p", false⟩] :=
      hperm.mem_iff.mpr (List.mem_cons_self _ _)
    simp at this

/-- C6 (amended): when the input folders carry pairwise distinct IDs and the
ordering loop terminates, the output of `orderFoldersOnHierarchy` is a
permutation of its input. -/
theorem claim_C6_permutation {S out : List Folder}
    (h : orderFoldersOnHierarchy S = some out)
    (hnd : (S.map Folder.ID).Nodup) : out.Perm S := by
  rw [orderFoldersOnHierarchy] at h
  exact orderGo_perm _ _ _ hnd h

/-- C6 (witness): a concrete ordering run whose output is a permutation of the
input. -/
theorem claim_C6_witness :
    ([(⟨"A", "", "Z", false⟩ : Folder), ⟨"B", "", "A", false⟩].Perm
      [⟨"B", "", "A", false⟩, ⟨"A", "", "Z", false⟩]) := by
  exact @claim_C6_permutation
    [⟨"B", "", "A", false⟩, ⟨"A", "", "Z", false⟩]
    [⟨"A", "", "Z", false⟩, ⟨"B", "", "A", false⟩]
    (by decide) (by decide)

/-- On a self-parenting folder, every pass of the ordering loop classifies the
folder as a non-root, so no amount of unrolling empties the working set. -/
theorem orderGo_selfloop_none :
    ∀ fuel : Nat, orderGo fuel [⟨"A", "A", "A", false⟩] = none := by
  intro fuel
  induction fuel with
  | zero => rfl
  | succ n ih =>
    have hparts : (rootFolders [(⟨"A", "A", "A", false⟩ : Folder)]).2
        = [⟨"A", "A", "A", false⟩] := by decide
    rw [orderGo, hparts, ih]

/-- C7 (counterexample): `orderFoldersOnHierarchy` does not terminate on every
input: on the single self-parenting folder `⟨"A","A","A"⟩` the repeated
partitioning never empties the set (no unrolling bound returns a result), so
the Go loop spins forever. -/
theorem claim_C7_counterexample :
    ¬ ∃ (fuel : Nat) (out : List Folder),
        orderGo fuel [⟨"A", "A", "A", false⟩] = some out := by
  intro ⟨fuel, out, h⟩
  rw [orderGo_selfloop_none fuel] at h
  cases h

/-- C7 (amended): the ordering loop terminates on every input whose parent
relation is acyclic, witnessed by a rank function under which a folder's
parent present in the set has strictly smaller rank; the input length bounds
the number of passes. -/
theorem claim_C7_terminates {rank : String → Nat} {fs : List Folder}
    (hh : Hier rank fs) : ∃ out, orderFoldersOnHierarchy fs = some out :=
  orderGo_total_of_hier fs.length fs (le_refl _) hh

/-- C7 (witness): a concrete acyclic two-folder chain on which the loop
terminates. -/
theorem claim_C7_witness :
    ∃ out, orderFoldersOnHierarchy
      [⟨"c", "", "b", false⟩, ⟨"b", "", "a", false⟩] = some out := by
  exact @claim_C7_terminates (fun s => if s = "c" then 1 else 0)
    [⟨"c", "", "b", false⟩, ⟨"b", "", "a", false⟩]
    (by
      intro c hc p hp hid
      fin_cases hc <;> fin_cases hp <;> simp_all)

/-! ## Claim C4: `convert` -/

/-- C4 (counterexample): `convert` reads `item.Parents[0]` without a bounds
check, so on an item whose parents array is empty it faults (panics) instead
of partitioning the list; the claim that `convert(items)` is defined for every
list of upstream items is false. -/
theorem claim_C4_counterexample :
    convert [⟨"X", "n", "text/plain", [], 0, "", false, ""⟩] = none ∧
    ¬ (convert [⟨"X", "n", "text/plain", [], 0, "", false, ""⟩]).isSome := by
  constructor
  · rfl
  · intro h
    simp [convert] at h

/-- C4 (amended): when every item's parents array is non-empty, `convert` is
defined and partitions the items: an item with the folder MIME type becomes a
Folder keeping only the first parent, every other item becomes a File carrying
MD5 and size, and folder-count + file-count equals the number of items. -/
theorem claim_C4_convert_partition {items : List DriveItem}
    (h : ∀ item ∈ items, item.Parents ≠ []) :
    convert items = some (items.filterMap convFolder?, items.filterMap convFile?) ∧
    (items.filterMap convFolder?).length + (items.filterMap convFile?).length
      = items.length :=
  ⟨convert_eq_filterMap items h, convert_counts items⟩

/-- C4 (witness): the multi-parent item of the spec's concrete scenario 4:
only the first parent is kept. -/
theorem claim_C4_witness :
    convert [⟨"A", "n", folderMimeType, ["Z", "Y"], 0, "", false, ""⟩]
      = some ([⟨"A", "n", "Z", false⟩], []) ∧ 1 + 0 = 1 := by
  have h := @claim_C4_convert_partition
    [⟨"A", "n", folderMimeType, ["Z", "Y"], 0, "", false, ""⟩]
    (by intro item hi; fin_cases hi; simp)
  refine ⟨?_, rfl⟩
  rw [h.1]
  rfl

/-! ## The auth-and-retry wrapper `withAuth` (fetch.go) -/

/-- `driveError` (fetch.go). -/
structure DriveError where
  Domain : String
  Message : String
  Reason : String
deriving DecidableEq, Repr

/-- The `Error` payload of `errorResponse` (fetch.go): the decoded body of a
non-200 reply. -/
structure ErrorBody where
  Errors : List DriveError
  Code : Int
  Message : String
deriving DecidableEq, Repr

/-- One observed outcome of `fetch.client.Do`: either a transport failure
(no HTTP response) or a response with its status code and decoded error
body. -/
inductive HTTPOutcome where
  | transportFailure
  | response (status : Nat) (body : ErrorBody)
deriving DecidableEq, Repr

/-- The three sentinel error kinds of bernard.go surfaced by `withAuth`
(`ErrNetwork`, `ErrInvalidCredentials`, `ErrNotFound`); message wrapping via
`fmt.Errorf` preserves the kind and is dropped here. -/
inductive FetchErr where
  | network
  | invalidCredentials
  | notFound
deriving DecidableEq, Repr

/-- The seconds slept by `handleBackoff` at a given `retriedAttempts` count:
`math.Exp2 n` is exact (and for huge `n` overflows to `+inf`, which is also
above the cap), the result is compared against 32 and converted to a whole
number of seconds, so the wait is `min(2^n, 32)` seconds. -/
def backoffDuration (retriedAttempts : Nat) : Nat :=
  min (2 ^ retriedAttempts) 32

/-- The 403 rate-limit reasons that are retried (fetch.go, `case
"userRateLimitExceeded", "rateLimitExceeded"`). -/
def rateLimitReason (r : String) : Bool :=
  r = "userRateLimitExceeded" || r = "rateLimitExceeded"

/-- `fetcher.withAuth` (fetch.go) run against a script of HTTP outcomes, one
consumed per loop iteration; the authenticator is modelled as always yielding
a token (its failure aborts before any HTTP activity).  Returns the loop's
result — `none` when the script is exhausted with the loop still running —
paired with the list of seconds handed to the injected sleep function, in
order. -/
def withAuth : List HTTPOutcome → Nat → Option (Except FetchErr HTTPOutcome) × List Nat
  | [], _ => (none, [])
  | a :: rest, retriedAttempts =>
    match a with
    | .transportFailure => (some (.error .network), [])
    | .response status body =>
      if status = 200 then (some (.ok a), [])
      else if status = 429 ∨ status = 500 ∨ status = 502 ∨ status = 503 ∨ status = 504 then
        let next := withAuth rest (retriedAttempts + 1)
        (next.1, backoffDuration retriedAttempts :: next.2)
      else if status = 401 then (some (.error .invalidCredentials), [])
      else if status = 403 then
        match body.Errors with
        | [] => (some (.error .network), [])
        | e :: _ =>
          if rateLimitReason e.Reason then
            let next := withAuth rest (retriedAttempts + 1)
            (next.1, backoffDuration retriedAttempts :: next.2)
          else (some (.error .network), [])
      else if status = 404 then (some (.error .notFound), [])
      else (some (.error .network), [])

/-- The outcomes `withAuth` retries: the five retryable statuses, and 403
whose first error reason is a rate-limit reason. -/
def retryable : HTTPOutcome → Bool
  | .transportFailure => false
  | .response status body =>
    (status = 429 || status = 500 || status = 502 || status = 503 || status = 504) ||
    (status = 403 && match body.Errors with
      | [] => false
      | e :: _ => rateLimitReason e.Reason)

theorem withAuth_terminal {t : HTTPOutcome} (ht : retryable t = false)
    (rest : List HTTPOutcome) (r : Nat) : (withAuth (t :: rest) r).2 = [] := by
  cases t with
  | transportFailure => rfl
  | response status body =>
    simp only [retryable, Bool.or_eq_false_iff, Bool.and_eq_false_iff] at ht
    obtain ⟨hs, h403⟩ := ht
    simp only [decide_eq_false_iff_not] at hs
    by_cases h200 : status = 200
    · simp [withAuth, h200]
    · rw [withAuth]
      rw [if_neg h200, if_neg (by tauto)]
      by_cases h401 : status = 401
      · rw [if_pos h401]
      · rw [if_neg h401]
        by_cases h403' : status = 403
        · rw [if_pos h403']
          cases herr : body.Errors with
          | nil => rfl
          | cons e es =>
            dsimp only
            rcases h403 with h | h
            · simp [h403'] at h
            · rw [herr] at h
              simp only at h
              rw [if_neg (by simp [h])]
        · rw [if_neg h403']
          by_cases h404 : status = 404
          · rw [if_pos h404]
          · rw [if_neg h404]

theorem withAuth_retry_step {a : HTTPOutcome} (ha : retryable a = true)
    (rest : List HTTPOutcome) (r : Nat) :
    withAuth (a :: rest) r
      = ((withAuth rest (r + 1)).1, backoffDuration r :: (withAuth rest (r + 1)).2) := by
  cases a with
  | transportFailure => simp [retryable] at ha
  | response status body =>
    simp only [retryable, Bool.or_eq_true, Bool.and_eq_true] at ha
    have h200 : status ≠ 200 := by
      rcases ha with h | ⟨h, -⟩ <;> simp only [decide_eq_true_eq] at h <;> omega
    rw [withAuth, if_neg h200]
    rcases ha with h | ⟨h403, hrate⟩
    · simp only [decide_eq_true_eq] at h
      rw [if_pos (by tauto)]
    · simp only [decide_eq_true_eq] at h403
      have hs : ¬ (status = 429 ∨ status = 500 ∨ status = 502 ∨ status = 503 ∨ status = 504) := by
        omega
      rw [if_neg hs, if_neg (by omega : ¬ status = 401), if_pos h403]
      cases herr : body.Errors with
      | nil => rw [herr] at hrate; simp at hrate
      | cons e es =>
        dsimp only
        rw [herr] at hrate
        simp only at hrate
        rw [if_pos hrate]

theorem withAuth_sleeps {rs : List HTTPOutcome} {t : HTTPOutcome}
    (hr : ∀ a ∈ rs, retryable a = true) (ht : retryable t = false) :
    ∀ r : Nat, (withAuth (rs ++ [t]) r).2
      = (List.range' r rs.length).map backoffDuration := by
  induction rs with
  | nil =>
    intro r
    simpa using withAuth_terminal ht [] r
  | cons a rest ih =>
    intro r
    have ha : retryable a = true := hr a (List.mem_cons_self _ _)
    rw [List.cons_append, withAuth_retry_step ha]
    simp only [List.length_cons, List.range'_succ, List.map_cons]
    rw [ih (fun x hx => hr x (List.mem_cons_of_mem _ hx)) (r + 1)]

/-! ## Claims C1, C2: retry and dispatch behaviour of `withAuth` -/

/-- C1: given k retryable responses followed by a terminal one, the injected
sleep function is invoked exactly k times and the n-th invocation
(zero-indexed) sleeps `min(2^n, 32)` seconds; no sleep follows the terminal
response. -/
theorem claim_C1_backoff {rs : List HTTPOutcome} {t : HTTPOutcome}
    (hr : ∀ a ∈ rs, retryable a = true) (ht : retryable t = false) :
    (withAuth (rs ++ [t]) 0).2
      = (List.range rs.length).map (fun n => min (2 ^ n) 32) := by
  rw [withAuth_sleeps hr ht 0, List.range_eq_range']
  rfl

/-- C1 (witness): the spec's concrete backoff scenario — seven 500s then a
200 sleep `[1, 2, 4, 8, 16, 32, 32]`. -/
theorem claim_C1_witness :
    (withAuth
      [.response 500 ⟨[], 500, ""⟩, .response 500 ⟨[], 500, ""⟩,
       .response 500 ⟨[], 500, ""⟩, .response 500 ⟨[], 500, ""⟩,
       .response 500 ⟨[], 500, ""⟩, .response 500 ⟨[], 500, ""⟩,
       .response 500 ⟨[], 500, ""⟩, .response 200 ⟨[], 0, ""⟩] 0).2
      = [1, 2, 4, 8, 16, 32, 32] := by
  have h := @claim_C1_backoff
    [.response 500 ⟨[], 500, ""⟩, .response 500 ⟨[], 500, ""⟩,
     .response 500 ⟨[], 500, ""⟩, .response 500 ⟨[], 500, ""⟩,
     .response 500 ⟨[], 500, ""⟩, .response 500 ⟨[], 500, ""⟩,
     .response 500 ⟨[], 500, ""⟩]
    (.response 200 ⟨[], 0, ""⟩) (by decide) (by decide)
  simpa using h

/-- C2: the full dispatch table of `withAuth` on the first observed outcome:
200 succeeds with the response; a transport failure is network without retry;
401 is invalid-credentials without retry; 404 is not-found without retry; the
five retryable statuses sleep `min(2^n, 32)` and retry; 403 retries exactly
when the first error reason is a rate-limit reason and is network without
retry otherwise (also on an empty error list); any other status is network
without retry. -/
theorem claim_C2_dispatch :
    (∀ (body : ErrorBody) (rest : List HTTPOutcome) (r : Nat),
      withAuth (.response 200 body :: rest) r
        = (some (.ok (.response 200 body)), [])) ∧
    (∀ (rest : List HTTPOutcome) (r : Nat),
      withAuth (.transportFailure :: rest) r = (some (.error .network), [])) ∧
    (∀ (body : ErrorBody) (rest : List HTTPOutcome) (r : Nat),
      withAuth (.response 401 body :: rest) r
        = (some (.error .invalidCredentials), [])) ∧
    (∀ (body : ErrorBody) (rest : List HTTPOutcome) (r : Nat),
      withAuth (.response 404 body :: rest) r = (some (.error .notFound), [])) ∧
    (∀ (s : Nat) (body : ErrorBody) (rest : List HTTPOutcome) (r : Nat),
      (s = 429 ∨ s = 500 ∨ s = 502 ∨ s = 503 ∨ s = 504) →
      withAuth (.response s body :: rest) r
        = ((withAuth rest (r + 1)).1,
           backoffDuration r :: (withAuth rest (r + 1)).2)) ∧
    (∀ (body : ErrorBody) (e : DriveError) (es : List DriveError)
        (rest : List HTTPOutcome) (r : Nat),
      body.Errors = e :: es → rateLimitReason e.Reason = true →
      withAuth (.response 403 body :: rest) r
        = ((withAuth rest (r + 1)).1,
           backoffDuration r :: (withAuth rest (r + 1)).2)) ∧
    (∀ (body : ErrorBody) (rest : List HTTPOutcome) (r : Nat),
      (body.Errors = [] ∨
        ∃ e es, body.Errors = e :: es ∧ rateLimitReason e.Reason = false) →
      withAuth (.response 403 body :: rest) r = (some (.error .network), [])) ∧
    (∀ (s : Nat) (body : ErrorBody) (rest : List HTTPOutcome) (r : Nat),
      s ≠ 200 → s ≠ 429 → s ≠ 500 → s ≠ 502 → s ≠ 503 → s ≠ 504 →
      s ≠ 401 → s ≠ 403 → s ≠ 404 →
      withAuth (.response s body :: rest) r = (some (.error .network), [])) := by
  refine ⟨?_, ?_, ?_, ?_, ?_, ?_, ?_, ?_⟩
  · intro body rest r
    simp [withAuth]
  · intro rest r
    rfl
  · intro body rest r
    rw [withAuth]
    norm_num
  · intro body rest r
    rw [withAuth]
    norm_num
  · intro s body rest r hs
    exact withAuth_retry_step (by simp [retryable]; omega) rest r
  · intro body e es rest r herr hrate
    exact withAuth_retry_step (by simp [retryable, herr, hrate]) rest r
  · intro body rest r hmix
    rw [withAuth]
    norm_num
    rcases hmix with h | ⟨e, es, herr, hrate⟩
    · rw [h]
    · rw [herr]
      dsimp only
      rw [if_neg (by simp [hrate])]
  · intro s body rest r h200 h429 h500 h502 h503 h504 h401 h403 h404
    rw [withAuth]
    rw [if_neg h200, if_neg (by tauto), if_neg h401, if_neg h403, if_neg h404]

/-- C2 (witness): a 429 retried with a one-second sleep, then a 404 surfacing
not-found. -/
theorem claim_C2_witness :
    withAuth [.response 429 ⟨[], 429, ""⟩, .response 404 ⟨[], 404, "m"⟩] 0
      = (some (.error .notFound), [1]) := by
  have h5 := claim_C2_dispatch.2.2.2.2.1 429 ⟨[], 429, ""⟩
    [.response 404 ⟨[], 404, "m"⟩] 0 (Or.inl rfl)
  have h4 := claim_C2_dispatch.2.2.2.1 ⟨[], 404, "m"⟩ [] 1
  rw [h5, h4]
  rfl

/-! ## The change stream: `fetcher.changedContent` (fetch.go) -/

/-- `sharedDrive` (fetch.go). -/
structure SharedDrive where
  ID : String
  Name : String
deriving DecidableEq, Repr

/-- `driveChange` (fetch.go): one record of the `/changes` feed. -/
structure DriveChange where
  Drive : SharedDrive
  DriveID : String
  File : DriveItem
  FileID : String
  Removed : Bool
deriving DecidableEq, Repr

/-- One decoded `/changes` response page. -/
structure ChangesPage where
  NextPageToken : String
  NewStartPageToken : String
  Changes : List DriveChange
deriving DecidableEq, Repr

/-- `changedContent` (fetch.go): the batch assembled from one incremental
fetch cycle. -/
structure ChangedContent where
  Drive : Drive
  ChangedFiles : List File
  ChangedFolders : List Folder
  RemovedIDs : List String
deriving DecidableEq, Repr

/-- The inner `for _, change := range response.Changes` loop of
`changedContent`: threads the pending drive name and the accumulated
removed-IDs list, and collects this page's `changedItems`. -/
def processChanges (driveID : String) (changes : List DriveChange)
    (driveName : String) (removedIDs : List String) :
    String × List String × List DriveItem :=
  changes.foldl
    (fun acc change =>
      if change.DriveID ≠ "" then (change.Drive.Name, acc.2.1, acc.2.2)
      else if change.FileID = "" then acc
      else if change.Removed ∨ change.File.DriveID ≠ driveID then
        (acc.1, acc.2.1 ++ [change.FileID], acc.2.2)
      else (acc.1, acc.2.1, acc.2.2 ++ [change.File]))
    (driveName, removedIDs, [])

/-- The drive-name writes performed by a change list (`drive.Name =
change.Drive.Name` for every change with `DriveID` set), in order. -/
def driveNameUpdates (changes : List DriveChange) : List String :=
  changes.filterMap (fun ch => if ch.DriveID ≠ "" then some ch.Drive.Name else none)

/-- The id the change loop appends to `removedIDs` for one change, if any. -/
def removedSel (driveID : String) (ch : DriveChange) : Option String :=
  if ch.DriveID ≠ "" then none
  else if ch.FileID = "" then none
  else if ch.Removed ∨ ch.File.DriveID ≠ driveID then some ch.FileID
  else none

/-- The item the change loop appends to `changedItems` for one change, if
any. -/
def changedSel (driveID : String) (ch : DriveChange) : Option DriveItem :=
  if ch.DriveID ≠ "" then none
  else if ch.FileID = "" then none
  else if ch.Removed ∨ ch.File.DriveID ≠ driveID then none
  else some ch.File

theorem processChanges_eq (driveID : String) (changes : List DriveChange)
    (driveName : String) (removedIDs : List String) :
    processChanges driveID changes driveName removedIDs
      = ((driveNameUpdates changes).getLastD driveName,
         removedIDs ++ changes.filterMap (removedSel driveID),
         changes.filterMap (changedSel driveID)) := by
  rw [processChanges]
  suffices H : ∀ (l : List DriveChange) (name : String) (rem : List String)
      (items : List DriveItem),
      (l.foldl
        (fun acc change =>
          if change.DriveID ≠ "" then (change.Drive.Name, acc.2.1, acc.2.2)
          else if change.FileID = "" then acc
          else if change.Removed ∨ change.File.DriveID ≠ driveID then
            (acc.1, acc.2.1 ++ [change.FileID], acc.2.2)
          else (acc.1, acc.2.1, acc.2.2 ++ [change.File]))
        (name, rem, items))
      = ((driveNameUpdates l).getLastD name,
         rem ++ l.filterMap (removedSel driveID),
         items ++ l.filterMap (changedSel driveID)) by
    simpa using H changes driveName removedIDs []
  intro l
  induction l with
  | nil => intro name rem items; simp [driveNameUpdates]
  | cons ch t ih =>
    intro name rem items
    simp only [List.foldl_cons]
    by_cases hdr : ch.DriveID ≠ ""
    · rw [if_pos hdr, ih]
      have h1 : driveNameUpdates (ch :: t) = ch.Drive.Name :: driveNameUpdates t := by
        simp only [driveNameUpdates, List.filterMap_cons, if_pos hdr]
      have h2 : removedSel driveID ch = none := by
        simp only [removedSel, if_pos hdr]
      have h3 : changedSel driveID ch = none := by
        simp only [changedSel, if_pos hdr]
      simp only [h1, List.getLastD_cons, List.filterMap_cons, h2, h3]
    · rw [if_neg hdr]
      have h1 : driveNameUpdates (ch :: t) = driveNameUpdates t := by
        simp only [driveNameUpdates, List.filterMap_cons, if_neg hdr]
      by_cases hfid : ch.FileID = ""
      · rw [if_pos hfid, ih]
        have h2 : removedSel driveID ch = none := by
          simp only [removedSel, if_neg hdr, if_pos hfid]
        have h3 : changedSel driveID ch = none := by
          simp only [changedSel, if_neg hdr, if_pos hfid]
        simp only [h1, List.filterMap_cons, h2, h3]
      · rw [if_neg hfid]
        by_cases hrem : ch.Removed = true ∨ ch.File.DriveID ≠ driveID
        · rw [if_pos hrem, ih]
          have h2 : removedSel driveID ch = some ch.FileID := by
            simp only [removedSel, if_neg hdr, if_neg hfid, if_pos hrem]
          have h3 : changedSel driveID ch = none := by
            simp only [changedSel, if_neg hdr, if_neg hfid, if_pos hrem]
          simp only [h1, List.filterMap_cons, h2, h3, List.append_assoc,
            List.singleton_append]
        · rw [if_neg hrem, ih]
          have h2 : removedSel driveID ch = none := by
            simp only [removedSel, if_neg hdr, if_neg hfid, if_neg hrem]
          have h3 : changedSel driveID ch = some ch.File := by
            simp only [changedSel, if_neg hdr, if_neg hfid, if_neg hrem]
          simp only [h1, List.filterMap_cons, h2, h3, List.append_assoc,
            List.singleton_append]

/-- The page loop of `changedContent`: each iteration consumes one scripted
response page, runs the change loop, converts this page's items and appends
them, overwrites the drive's name and page-token, and stops when
`nextPageToken` is empty.  `none` marks an exhausted script, a `convert`
panic, or a non-terminating folder ordering. -/
def changedPages (driveID : String) :
    List ChangesPage → Drive → List Folder → List File → List String →
      Option ChangedContent
  | [], _, _, _, _ => none
  | page :: rest, drive, folders, files, removedIDs =>
    match processChanges driveID page.Changes drive.Name removedIDs with
    | (name, removed, items) =>
      match convert items with
      | none => none
      | some (chFolders, chFiles) =>
        let folders := folders ++ chFolders
        let files := files ++ chFiles
        let drive := { drive with Name := name, PageToken := page.NewStartPageToken }
        if page.NextPageToken = "" then
          match orderFoldersOnHierarchy folders with
          | none => none
          | some ordered =>
            some ⟨drive, files, ordered, removed⟩
        else changedPages driveID rest drive folders files removed

/-- `fetcher.changedContent` (fetch.go) on a scripted response sequence,
starting from `ds.Drive{ID: driveID}` and empty accumulators. -/
def changedContentRun (driveID : String) (pages : List ChangesPage) :
    Option ChangedContent :=
  changedPages driveID pages ⟨driveID, "", ""⟩ [] [] []

/-! ### Provenance of batch entries -/

theorem convert_file_mem : ∀ {items : List DriveItem} {fo : List Folder}
    {fi : List File}, convert items = some (fo, fi) →
    ∀ f ∈ fi, ∃ item ∈ items, f.ID = item.ID := by
  intro items
  induction items with
  | nil =>
    intro fo fi h f hf
    rw [convert] at h
    simp only [Option.some.injEq, Prod.mk.injEq] at h
    obtain ⟨rfl, rfl⟩ := h
    cases hf
  | cons item rest ih =>
    intro fo fi h f hf
    rw [convert] at h
    cases hp : item.Parents with
    | nil => rw [hp] at h; cases h
    | cons p ps =>
      rw [hp] at h
      cases hc : convert rest with
      | none => rw [hc] at h; cases h
      | some pair =>
        obtain ⟨fo', fi'⟩ := pair
        rw [hc] at h
        dsimp only at h
        by_cases hm : item.MimeType = folderMimeType
        · rw [if_pos hm] at h
          simp only [Option.some.injEq, Prod.mk.injEq] at h
          obtain ⟨-, rfl⟩ := h
          obtain ⟨it, hit, hid⟩ := ih hc f hf
          exact ⟨it, List.mem_cons_of_mem _ hit, hid⟩
        · rw [if_neg hm] at h
          simp only [Option.some.injEq, Prod.mk.injEq] at h
          obtain ⟨-, hfi⟩ := h
          rw [← hfi] at hf
          rcases List.mem_cons.mp hf with rfl | hf'
          · exact ⟨item, List.mem_cons_self _ _, rfl⟩
          · obtain ⟨it, hit, hid⟩ := ih hc f hf'
            exact ⟨it, List.mem_cons_of_mem _ hit, hid⟩

theorem convert_folder_mem : ∀ {items : List DriveItem} {fo : List Folder}
    {fi : List File}, convert items = some (fo, fi) →
    ∀ g ∈ fo, ∃ item ∈ items, g.ID = item.ID := by
  intro items
  induction items with
  | nil =>
    intro fo fi h g hg
    rw [convert] at h
    simp only [Option.some.injEq, Prod.mk.injEq] at h
    obtain ⟨rfl, rfl⟩ := h
    cases hg
  | cons item rest ih =>
    intro fo fi h g hg
    rw [convert] at h
    cases hp : item.Parents with
    | nil => rw [hp] at h; cases h
    | cons p ps =>
      rw [hp] at h
      cases hc : convert rest with
      | none => rw [hc] at h; cases h
      | some pair =>
        obtain ⟨fo', fi'⟩ := pair
        rw [hc] at h
        dsimp only at h
        by_cases hm : item.MimeType = folderMimeType
        · rw [if_pos hm] at h
          simp only [Option.some.injEq, Prod.mk.injEq] at h
          obtain ⟨hfo, -⟩ := h
          rw [← hfo] at hg
          rcases List.mem_cons.mp hg with rfl | hg'
          · exact ⟨item, List.mem_cons_self _ _, rfl⟩
          · obtain ⟨it, hit, hid⟩ := ih hc g hg'
            exact ⟨it, List.mem_cons_of_mem _ hit, hid⟩
        · rw [if_neg hm] at h
          simp only [Option.some.injEq, Prod.mk.injEq] at h
          obtain ⟨rfl, -⟩ := h
          obtain ⟨it, hit, hid⟩ := ih hc g hg
          exact ⟨it, List.mem_cons_of_mem _ hit, hid⟩

theorem changedPages_prov (driveID : String) :
    ∀ (pages : List ChangesPage) (drive : Drive) (folders : List Folder)
      (files : List File) (removedIDs : List String) (batch : ChangedContent),
    changedPages driveID pages drive folders files removedIDs = some batch →
    (∀ id ∈ batch.RemovedIDs, id ∈ removedIDs ∨
      ∃ page ∈ pages, ∃ ch ∈ page.Changes, removedSel driveID ch = some id) ∧
    (∀ f ∈ batch.ChangedFiles, f ∈ files ∨
      ∃ page ∈ pages, ∃ ch ∈ page.Changes, ∃ item,
        changedSel driveID ch = some item ∧ f.ID = item.ID) ∧
    (∀ g ∈ batch.ChangedFolders, g ∈ folders ∨
      ∃ page ∈ pages, ∃ ch ∈ page.Changes, ∃ item,
        changedSel driveID ch = some item ∧ g.ID = item.ID) := by
  intro pages
  induction pages with
  | nil => intro drive folders files removedIDs batch h; cases h
  | cons page rest ih =>
    intro drive folders files removedIDs batch h
    rw [changedPages, processChanges_eq] at h
    dsimp only at h
    cases hc : convert (page.Changes.filterMap (changedSel driveID)) with
    | none => rw [hc] at h; cases h
    | some pair =>
      obtain ⟨chFolders, chFiles⟩ := pair
      rw [hc] at h
      dsimp only at h
      have hremoved : ∀ id ∈ removedIDs ++ page.Changes.filterMap (removedSel driveID),
          id ∈ removedIDs ∨
            ∃ pg ∈ page :: rest, ∃ ch ∈ pg.Changes, removedSel driveID ch = some id := by
        intro id hid
        rcases List.mem_append.mp hid with hid | hid
        · exact Or.inl hid
        · obtain ⟨ch, hch, hsel⟩ := List.mem_filterMap.mp hid
          exact Or.inr ⟨page, List.mem_cons_self _ _, ch, hch, hsel⟩
      have hfiles : ∀ f ∈ files ++ chFiles, f ∈ files ∨
          ∃ pg ∈ page :: rest, ∃ ch ∈ pg.Changes, ∃ item,
            changedSel driveID ch = some item ∧ f.ID = item.ID := by
        intro f hf
        rcases List.mem_append.mp hf with hf | hf
        · exact Or.inl hf
        · obtain ⟨item, hitem, hid⟩ := convert_file_mem hc f hf
          obtain ⟨ch, hch, hsel⟩ := List.mem_filterMap.mp hitem
          exact Or.inr ⟨page, List.mem_cons_self _ _, ch, hch, item, hsel, hid⟩
      have hfolders : ∀ g ∈ folders ++ chFolders, g ∈ folders ∨
          ∃ pg ∈ page :: rest, ∃ ch ∈ pg.Changes, ∃ item,
            changedSel driveID ch = some item ∧ g.ID = item.ID := by
        intro g hg
        rcases List.mem_append.mp hg with hg | hg
        · exact Or.inl hg
        · obtain ⟨item, hitem, hid⟩ := convert_folder_mem hc g hg
          obtain ⟨ch, hch, hsel⟩ := List.mem_filterMap.mp hitem
          exact Or.inr ⟨page, List.mem_cons_self _ _, ch, hch, item, hsel, hid⟩
      by_cases hnext : page.NextPageToken = ""
      · rw [if_pos hnext] at h
        cases hord : orderFoldersOnHierarchy (folders ++ chFolders) with
        | none => rw [hord] at h; cases h
        | some ordered =>
          rw [hord] at h
          obtain rfl : (⟨_, files ++ chFiles, ordered,
              removedIDs ++ page.Changes.filterMap (removedSel driveID)⟩ : ChangedContent)
              = batch := Option.some.inj h
          refine ⟨hremoved, hfiles, ?_⟩
          intro g hg
          exact hfolders g (orderGo_mem _ _ _ hord g hg)
      · rw [if_neg hnext] at h
        obtain ⟨ihrem, ihfiles, ihfolders⟩ := ih _ _ _ _ _ h
        refine ⟨?_, ?_, ?_⟩
        · intro id hid
          rcases ihrem id hid with hid' | ⟨pg, hpg, ch, hch, hsel⟩
          · exact hremoved id hid'
          · exact Or.inr ⟨pg, List.mem_cons_of_mem _ hpg, ch, hch, hsel⟩
        · intro f hf
          rcases ihfiles f hf with hf' | ⟨pg, hpg, ch, hch, item, hsel, hid⟩
          · exact hfiles f hf'
          · exact Or.inr ⟨pg, List.mem_cons_of_mem _ hpg, ch, hch, item, hsel, hid⟩
        · intro g hg
          rcases ihfolders g hg with hg' | ⟨pg, hpg, ch, hch, item, hsel, hid⟩
          · exact hfolders g hg'
          · exact Or.inr ⟨pg, List.mem_cons_of_mem _ hpg, ch, hch, item, hsel, hid⟩

theorem removedSel_some {driveID : String} {ch : DriveChange} {id : String}
    (h : removedSel driveID ch = some id) :
    ch.DriveID = "" ∧ ch.FileID ≠ "" ∧
      (ch.Removed = true ∨ ch.File.DriveID ≠ driveID) ∧ id = ch.FileID := by
  unfold removedSel at h
  split_ifs at h with h1 h2 h3
  · exact ⟨not_ne_iff.mp h1, h2, h3, (Option.some.inj h).symm⟩

theorem changedSel_some {driveID : String} {ch : DriveChange} {item : DriveItem}
    (h : changedSel driveID ch = some item) :
    ch.DriveID = "" ∧ ch.FileID ≠ "" ∧ ch.Removed = false ∧
      ch.File.DriveID = driveID ∧ item = ch.File := by
  unfold changedSel at h
  split_ifs at h with h1 h2 h3
  push_neg at h3
  exact ⟨not_ne_iff.mp h1, h2, Bool.not_eq_true _ ▸ h3.1, h3.2,
    (Option.some.inj h).symm⟩

/-! ## Claims C3, C9: change-stream dispatch and batch disjointness -/

/-- C3 (counterexample): a change whose `driveId` AND `fileId` are both set
(not removed, embedded file in the requested drive) is consumed by the
drive-name branch — the loop tests only `driveId != ""` — so its file payload
is NOT appended to the changed items, contrary to the claim's final clause. -/
theorem claim_C3_counterexample :
    processChanges "d0"
        [⟨⟨"dX", "NewName"⟩, "dX",
          ⟨"f1", "file", "text/plain", ["p"], 0, "md5", false, "d0"⟩, "f1", false⟩]
        "" []
      = ("NewName", [], []) ∧
    ([] : List DriveItem)
      ≠ [⟨"f1", "file", "text/plain", ["p"], 0, "md5", false, "d0"⟩] := by
  exact ⟨rfl, by decide⟩

/-- C3 (amended): a change whose `driveId` is set updates the pending drive
name (last write wins) and produces no item, regardless of its `fileId`;
among the remaining changes, one with an empty `fileId` is ignored, one
marked removed or whose embedded file's `driveId` differs from the requested
drive contributes its `fileId` to the removed-IDs list, and every other one
contributes its file payload to the changed items, all in input order. -/
theorem claim_C3_change_dispatch (driveID : String) (changes : List DriveChange)
    (driveName : String) (removedIDs : List String) :
    processChanges driveID changes driveName removedIDs
      = ((driveNameUpdates changes).getLastD driveName,
         removedIDs ++ changes.filterMap (removedSel driveID),
         changes.filterMap (changedSel driveID)) :=
  processChanges_eq driveID changes driveName removedIDs

/-- C9 (counterexample): a page containing two changes for the same file id —
one update, one removal — yields a batch whose removed-IDs list and changed
files both name `"x"`; `changedContent` never cross-checks the two lists. -/
theorem claim_C9_counterexample :
    changedContentRun "d0"
        [⟨"", "nst",
          [⟨⟨"", ""⟩, "", ⟨"x", "f", "text/plain", ["p"], 0, "m", false, "d0"⟩,
            "x", false⟩,
           ⟨⟨"", ""⟩, "", ⟨"", "", "", [], 0, "", false, ""⟩, "x", true⟩]⟩]
      = some ⟨⟨"d0", "", "nst"⟩, [⟨"x", "f", "p", false, 0, "m"⟩], [], ["x"]⟩ ∧
    "x" ∈ ["x"] ∧
    "x" ∈ ([⟨"x", "f", "p", false, 0, "m"⟩] : List File).map File.ID := by
  refine ⟨by decide, by decide, by decide⟩

/-- C9 (amended): provided every consumed change carries a well-formed file
payload (`file.id == fileId` whenever `driveId` is empty and `fileId` is
non-empty) and no two distinct such changes share a `fileId`, no identifier
appears both in the batch's removed-IDs list and among its changed folders or
changed files. -/
theorem claim_C9_removed_changed_disjoint {driveID : String}
    {pages : List ChangesPage} {batch : ChangedContent}
    (h : changedContentRun driveID pages = some batch)
    (hwf : ∀ page ∈ pages, ∀ ch ∈ page.Changes,
      ch.DriveID = "" → ch.FileID ≠ "" → ch.File.ID = ch.FileID)
    (huni : ∀ p1 ∈ pages, ∀ ch1 ∈ p1.Changes, ∀ p2 ∈ pages, ∀ ch2 ∈ p2.Changes,
      ch1.DriveID = "" → ch2.DriveID = "" → ch1.FileID ≠ "" →
      ch1.FileID = ch2.FileID → ch1 = ch2) :
    ∀ id ∈ batch.RemovedIDs,
      id ∉ batch.ChangedFiles.map File.ID ∧
      id ∉ batch.ChangedFolders.map Folder.ID := by
  rw [changedContentRun] at h
  obtain ⟨hrem, hfiles, hfolders⟩ := changedPages_prov driveID pages _ _ _ _ _ h
  intro id hid
  rcases hrem id hid with h0 | ⟨p1, hp1, ch1, hch1, hr1⟩
  · cases h0
  obtain ⟨hd1, hf1, hcl1, hid1⟩ := removedSel_some hr1
  have contra : ∀ (item : DriveItem), (∃ p2 ∈ pages, ∃ ch2 ∈ p2.Changes,
      changedSel driveID ch2 = some item) → id ≠ item.ID := by
    rintro item ⟨p2, hp2, ch2, hch2, hsel⟩ hid2
    obtain ⟨hd2, hf2, hrm2, hdr2, hitem⟩ := changedSel_some hsel
    have hfid2 : ch2.File.ID = ch2.FileID := hwf p2 hp2 ch2 hch2 hd2 hf2
    have hfids : ch1.FileID = ch2.FileID := by
      rw [← hid1] at *
      rw [hid2, hitem, hfid2]
    obtain rfl := huni p1 hp1 ch1 hch1 p2 hp2 ch2 hch2 hd1 hd2 hf1 hfids
    rcases hcl1 with hcl1 | hcl1
    · rw [hrm2] at hcl1; cases hcl1
    · exact hcl1 hdr2
  constructor
  · intro hmem
    obtain ⟨f, hf, hfid⟩ := List.mem_map.mp hmem
    rcases hfiles f hf with h0 | ⟨p2, hp2, ch2, hch2, item, hsel, hfi⟩
    · cases h0
    · exact contra item ⟨p2, hp2, ch2, hch2, hsel⟩ (by rw [← hfid, hfi])
  · intro hmem
    obtain ⟨g, hg, hgid⟩ := List.mem_map.mp hmem
    rcases hfolders g hg with h0 | ⟨p2, hp2, ch2, hch2, item, hsel, hgi⟩
    · cases h0
    · exact contra item ⟨p2, hp2, ch2, hch2, hsel⟩ (by rw [← hgid, hgi])

/-- C9 (witness): a batch removing `"b"` while changing `"a"` keeps the two
lists disjoint. -/
theorem claim_C9_witness :
    "b" ∉ ([⟨"a", "f", "p", false, 0, "m"⟩] : List File).map File.ID ∧
    "b" ∉ ([] : List Folder).map Folder.ID := by
  exact @claim_C9_removed_changed_disjoint
    "d0"
    [⟨"", "nst",
      [⟨⟨"", ""⟩, "", ⟨"a", "f", "text/plain", ["p"], 0, "m", false, "d0"⟩,
        "a", false⟩,
       ⟨⟨"", ""⟩, "", ⟨"b", "", "", [], 0, "", false, ""⟩, "b", true⟩]⟩]
    ⟨⟨"d0", "", "nst"⟩, [⟨"a", "f", "p", false, 0, "m"⟩], [], ["b"]⟩
    (by decide) (by decide) (by decide) "b" (by decide)

/-! ## The SQLite reference datastore (sqlite package)

The store's tables are embedded as row lists; a transaction is a staged
state threaded through the statements, with `tx.Rollback()` embedded by
returning the entry state unchanged.  Foreign-key checks (`PRAGMA
foreign_keys=ON`, constraints `FOREIGN KEY(parent, drive) REFERENCES
folder(id, drive)`) are modelled at statement granularity: an upsert checks
the written row's parent against the post-statement folder table, a folder
deletion fails when a surviving folder or file row references a deleted
row.  This agrees with SQLite's immediate row-by-row checks on every
rejection the proofs below rely on. -/

/-- A row of the `drive` table. -/
structure DriveRow where
  ID : String
  PageToken : String
deriving DecidableEq, Repr

/-- A row of the `folder` table (`parent` is nullable). -/
structure FolderRow where
  ID : String
  Drive : String
  Name : String
  Parent : Option String
  Trashed : Bool
deriving DecidableEq, Repr

/-- A row of the `file` table. -/
structure FileRow where
  ID : String
  Drive : String
  Name : String
  MD5 : String
  Parent : String
  Size : Int
  Trashed : Bool
deriving DecidableEq, Repr

/-- The three tables of the SQLite schema. -/
structure DBState where
  drives : List DriveRow
  folders : List FolderRow
  files : List FileRow
deriving DecidableEq, Repr

/-- The error kinds of the datastore package relevant here
(`ErrDataAnomaly`, `ErrDatabase`, `ErrFullSync`). -/
inductive StoreErr where
  | dataAnomaly
  | database
  | fullSync
deriving DecidableEq, Repr

/-- `NULLIF(?, "")` of `sqlUpsertFolder`. -/
def nullif (s : String) : Option String :=
  if s = "" then none else some s

/-- `sqlUpsertDrive`: insert or, on conflict of `id`, update `pageToken`.
No foreign key, so this statement cannot raise a constraint violation. -/
def upsertDriveRow (st : DBState) (id tok : String) : DBState :=
  if decide (∃ r ∈ st.drives, r.ID = id) then
    { st with drives :=
        st.drives.map (fun r => if r.ID = id then { r with PageToken := tok } else r) }
  else
    { st with drives := st.drives ++ [⟨id, tok⟩] }

/-- The `FOREIGN KEY(parent, drive) REFERENCES folder(id, drive)` check for a
written folder row, against the post-statement table. -/
def folderParentOK (folders : List FolderRow) (drive : String) : Option String → Bool
  | none => true
  | some p => decide (∃ r ∈ folders, r.ID = p ∧ r.Drive = drive)

/-- `sqlUpsertFolder`: insert or, on conflict of `(id, drive)`, update the
non-key columns; a violated parent foreign key aborts the statement. -/
def upsertFolderRow (st : DBState) (id drive name : String) (parent : Option String)
    (trashed : Bool) : Except StoreErr DBState :=
  let newFolders :=
    if decide (∃ r ∈ st.folders, r.ID = id ∧ r.Drive = drive) then
      st.folders.map (fun r =>
        if r.ID = id ∧ r.Drive = drive then ⟨r.ID, r.Drive, name, parent, trashed⟩ else r)
    else
      st.folders ++ [⟨id, drive, name, parent, trashed⟩]
  if folderParentOK newFolders drive parent then
    .ok { st with folders := newFolders }
  else
    .error .dataAnomaly

/-- `sqlUpsertFile`: insert or, on conflict of `(id, drive)`, update the
non-key columns; the parent must reference a folder row of the drive. -/
def upsertFileRow (st : DBState) (id drive name md5 parent : String) (size : Int)
    (trashed : Bool) : Except StoreErr DBState :=
  let newFiles :=
    if decide (∃ r ∈ st.files, r.ID = id ∧ r.Drive = drive) then
      st.files.map (fun r =>
        if r.ID = id ∧ r.Drive = drive then ⟨r.ID, r.Drive, name, md5, parent, size, trashed⟩
        else r)
    else
      st.files ++ [⟨id, drive, name, md5, parent, size, trashed⟩]
  if decide (∃ r ∈ st.folders, r.ID = parent ∧ r.Drive = drive) then
    .ok { st with files := newFiles }
  else
    .error .dataAnomaly

/-- `sqlDeleteFiles` with the bind vars of `addParameters`: delete the file
rows whose id is listed, scoped to the drive.  Nothing references a file row,
so the statement cannot raise a constraint violation. -/
def deleteFileRows (st : DBState) (ids : List String) (drive : String) : DBState :=
  { st with files := st.files.filter (fun r => !decide (r.ID ∈ ids ∧ r.Drive = drive)) }

/-- `sqlDeleteFolders`: delete the listed folder rows of the drive; the
statement is rejected when a surviving folder or file row still references a
deleted row. -/
def deleteFolderRows (st : DBState) (ids : List String) (drive : String) :
    Except StoreErr DBState :=
  let deleted := st.folders.filter (fun r => decide (r.ID ∈ ids ∧ r.Drive = drive))
  let remaining := st.folders.filter (fun r => !decide (r.ID ∈ ids ∧ r.Drive = drive))
  if decide (∃ d ∈ deleted,
      (∃ c ∈ remaining, c.Parent = some d.ID ∧ c.Drive = d.Drive) ∨
      (∃ c ∈ st.files, c.Parent = d.ID ∧ c.Drive = d.Drive)) then
    .error .dataAnomaly
  else
    .ok { st with folders := remaining }

/-- The upsert half of `Datastore.PartialSync` (sqlite package): page-token
update, conditional root-folder rename, changed-folder upserts, changed-file
upserts, all on the staged transaction state. -/
def upsertPhase (st : DBState) (drive : Drive) (changedFolders : List Folder)
    (changedFiles : List File) : Except StoreErr DBState := do
  let st := upsertDriveRow st drive.ID drive.PageToken
  let st ← if drive.Name ≠ "" then
      upsertFolderRow st drive.ID drive.ID drive.Name none false
    else .ok st
  let st ← changedFolders.foldlM
    (fun s f => upsertFolderRow s f.ID drive.ID f.Name (nullif f.Parent) f.Trashed) st
  changedFiles.foldlM
    (fun s f => upsertFileRow s f.ID drive.ID f.Name f.MD5 f.Parent f.Size f.Trashed) st

/-- The whole `Datastore.PartialSync` transaction body: upserts, then — when
`removedIDs` is non-empty — file deletion followed by folder deletion. -/
def partialSyncTx (st : DBState) (drive : Drive) (changedFolders : List Folder)
    (changedFiles : List File) (removedIDs : List String) : Except StoreErr DBState := do
  let s ← upsertPhase st drive changedFolders changedFiles
  if removedIDs.length > 0 then
    deleteFolderRows (deleteFileRows s removedIDs drive.ID) removedIDs drive.ID
  else
    .ok s

/-- `Datastore.PartialSync` as observed by the caller: on any statement error
the transaction is rolled back (`tx.Rollback()`), so the stored state is the
entry state; on success the staged state is committed. -/
def partialSync (st : DBState) (drive : Drive) (changedFolders : List Folder)
    (changedFiles : List File) (removedIDs : List String) : DBState × Option StoreErr :=
  match partialSyncTx st drive changedFolders changedFiles removedIDs with
  | .ok s => (s, none)
  | .error e => (st, some e)

/-- `SELECT pageToken FROM drive WHERE id=?`. -/
def lookupDriveRow (st : DBState) (id : String) : Option DriveRow :=
  st.drives.find? (fun r => decide (r.ID = id))

/-- `Datastore.PageToken` (sqlite package): `row.Scan` fails on a driver or
database failure — modelled by the `dbFailure` flag — or when no row matches;
the code maps every such failure to `ds.ErrFullSync`. -/
def pageTokenOp (st : DBState) (dbFailure : Bool) (driveID : String) :
    Except StoreErr String :=
  match (if dbFailure then none else lookupDriveRow st driveID) with
  | none => .error .fullSync
  | some row => .ok row.PageToken

/-! ## Claims C8, C10: the store -/

/-- C8: a `PartialSync` that returns *data-anomaly* leaves the stored
page-token and the entire row-set unchanged (the transaction rolls back);
and when the removed-IDs list names a folder of the drive while a surviving
child row of the drive (a descendant not itself removed) still references it,
the folder deletion is rejected by referential integrity and the whole
transaction rolls back with *data-anomaly*. -/
theorem claim_C8_partial_sync_atomic :
    (∀ (st : DBState) (drive : Drive) (cfo : List Folder) (cfi : List File)
        (rem : List String) (e : StoreErr),
      (partialSync st drive cfo cfi rem).2 = some e →
      (partialSync st drive cfo cfi rem).1 = st) ∧
    (∀ (st : DBState) (drive : Drive) (cfo : List Folder) (cfi : List File)
        (rem : List String) (s : DBState) (fRow cRow : FolderRow),
      upsertPhase st drive cfo cfi = .ok s →
      fRow ∈ s.folders → fRow.Drive = drive.ID → fRow.ID ∈ rem →
      cRow ∈ s.folders → cRow.Drive = drive.ID → cRow.Parent = some fRow.ID →
      cRow.ID ∉ rem →
      partialSync st drive cfo cfi rem = (st, some .dataAnomaly)) := by
  constructor
  · intro st drive cfo cfi rem e h
    rw [partialSync] at h ⊢
    cases htx : partialSyncTx st drive cfo cfi rem with
    | ok s =>
      rw [htx] at h
      exact absurd h (by simp)
    | error e' =>
      rfl
  · intro st drive cfo cfi rem s fRow cRow hupsert hfmem hfdrive hfrem hcmem hcdrive
      hcpar hcrem
    have hlen : rem.length > 0 := by
      cases rem with
      | nil => cases hfrem
      | cons a t => simp
    have hdel : deleteFolderRows (deleteFileRows s rem drive.ID) rem drive.ID
        = .error .dataAnomaly := by
      have hfolders : (deleteFileRows s rem drive.ID).folders = s.folders := rfl
      rw [deleteFolderRows]
      rw [if_pos]
      apply decide_eq_true
      refine ⟨fRow, ?_, Or.inl ⟨cRow, ?_, hcpar, by rw [hcdrive, hfdrive]⟩⟩
      · rw [hfolders]
        exact List.mem_filter.mpr ⟨hfmem, decide_eq_true ⟨hfrem, hfdrive⟩⟩
      · rw [hfolders]
        refine List.mem_filter.mpr ⟨hcmem, ?_⟩
        simp only [Bool.not_eq_true', decide_eq_false_iff_not]
        intro hcontra
        exact hcrem hcontra.1
    have htx : partialSyncTx st drive cfo cfi rem = .error .dataAnomaly := by
      rw [partialSyncTx, hupsert]
      show (if rem.length > 0 then
          deleteFolderRows (deleteFileRows s rem drive.ID) rem drive.ID
        else .ok s) = .error .dataAnomaly
      rw [if_pos hlen, hdel]
    rw [partialSync, htx]

/-- C8 (witness): removing folder `F` while its child `C` stays aborts the
sync and leaves the store untouched. -/
theorem claim_C8_witness :
    partialSync
        ⟨[], [⟨"F", "d", "f", none, false⟩, ⟨"C", "d", "c", some "F", false⟩], []⟩
        ⟨"d", "", "tok"⟩ [] [] ["F"]
      = (⟨[], [⟨"F", "d", "f", none, false⟩, ⟨"C", "d", "c", some "F", false⟩], []⟩,
         some .dataAnomaly) := by
  exact claim_C8_partial_sync_atomic.2
    ⟨[], [⟨"F", "d", "f", none, false⟩, ⟨"C", "d", "c", some "F", false⟩], []⟩
    ⟨"d", "", "tok"⟩ [] [] ["F"]
    ⟨[⟨"d", "tok"⟩], [⟨"F", "d", "f", none, false⟩, ⟨"C", "d", "c", some "F", false⟩], []⟩
    ⟨"F", "d", "f", none, false⟩ ⟨"C", "d", "c", some "F", false⟩
    rfl (by decide) rfl (by decide) (by decide) rfl rfl (by decide)

/-- C10: `PageToken` maps every read failure — a driver/database failure as
well as a genuinely absent row — to *requires-full-sync*: no database error
is ever surfaced, so the caller cannot distinguish a missing cursor from a
failing store. -/
theorem claim_C10_pagetoken_fullsync :
    (∀ (st : DBState) (b : Bool) (id : String) (e : StoreErr),
      pageTokenOp st b id = .error e → e = .fullSync) ∧
    (∀ (st : DBState) (id : String),
      pageTokenOp st true id = .error .fullSync) ∧
    (∀ (st : DBState) (id : String), lookupDriveRow st id = none →
      pageTokenOp st false id = .error .fullSync) := by
  refine ⟨?_, ?_, ?_⟩
  · intro st b id e h
    cases b with
    | true =>
      have hred : pageTokenOp st true id = .error .fullSync := rfl
      rw [hred] at h
      exact (Except.error.inj h).symm
    | false =>
      have hred : pageTokenOp st false id
          = (match lookupDriveRow st id with
             | none => (.error .fullSync : Except StoreErr String)
             | some row => .ok row.PageToken) := rfl
      rw [hred] at h
      cases hlook : lookupDriveRow st id with
      | none =>
        rw [hlook] at h
        exact (Except.error.inj h).symm
      | some row =>
        rw [hlook] at h
        cases h
  · intro st id
    rfl
  · intro st id h
    have hred : pageTokenOp st false id
        = (match lookupDriveRow st id with
           | none => (.error .fullSync : Except StoreErr String)
           | some row => .ok row.PageToken) := rfl
    rw [hred, h]

/-- C10 (witness): a driver failure on a store that does hold the row is
still reported as *requires-full-sync*. -/
theorem claim_C10_witness :
    pageTokenOp ⟨[⟨"d", "tok"⟩], [], []⟩ true "d" = .error .fullSync :=
  claim_C10_pagetoken_fullsync.2.1 ⟨[⟨"d", "tok"⟩], [], []⟩ "d"

end Bernard
